import Mathlib

/-!
Verification development for the `ai-models-vs-commits` repository: a small
ETL-plus-visualization pipeline that fetches monthly GitHub commit counts
(incrementally from hourly archive files, or in bulk from BigQuery), caches
them in a CSV file keyed by month, and renders a chart annotated with LLM
release events.

Shallow-embedding conventions used throughout this file:

* Calendar days are integers (`ℤ`, one unit per day); the code's ISO date
  strings are in order-preserving bijection with day numbers.
* Month keys of the cache are naturals (`ℕ`); the code's `"YYYY-MM"` strings
  are only ever compared, sorted and used as dictionary keys, and the numeric
  reading `YYYYMM` of such a string is an order isomorphism, so a numeric key
  is a faithful model.  The CSV file's rows are modelled structurally as
  `month × count` pairs (the textual rendering of a row is a fixed injective
  function of the pair, so byte identity of rendered rows coincides with
  equality of row lists).
* Python `dict`s are association lists with first-occurrence key order and
  overwrite-on-repeated-key semantics (`dictGet` / `dictSet` / `dictOfList`).
* Network results are an oracle parameter `data : ℤ → ℕ → Option ℤ`:
  `data d h` is what `stream_hourly_file(d, h)` produces for hour `h` of day
  `d` — `none` when the download raises after exhausting retries, `some (-1)`
  for a 404 (the function's "missing file" sentinel), and `some n` with
  `n ≥ 0` for a successfully parsed file totalling `n` commits.
* Float arithmetic inside `cap_outliers` is modelled exactly by fractions of
  integers (`Frac`), and pandas' `round` by round-half-to-even.
-/

namespace AIvsCommits

/-! ## Python dictionaries as association lists -/

/-- Look up a key in an association list, like Python `d.get(k)`. -/
def dictGet (m : List (ℕ × ℤ)) (k : ℕ) : Option ℤ :=
  (m.find? (fun p => p.1 = k)).map (fun p => p.2)

/-- Set a key, like Python `d[k] = v`: overwrite in place when the key is
present, append otherwise (Python dicts keep first-insertion order). -/
def dictSet (m : List (ℕ × ℤ)) (k : ℕ) (v : ℤ) : List (ℕ × ℤ) :=
  if m.any (fun p => p.1 = k) then
    m.map (fun p => if p.1 = k then (k, v) else p)
  else
    m ++ [(k, v)]

/-- Build a dict from a list of key/value pairs in order, later pairs
overwriting earlier ones (Python `dict` insertion semantics). -/
def dictOfList (l : List (ℕ × ℤ)) : List (ℕ × ℤ) :=
  l.foldl (fun m p => dictSet m p.1 p.2) []

/-! ## fetch_github_data.py — the incremental scan -/

/-- Embedding of `iter_date_range(start, end)`: every day from `start` to
`endD` inclusive. -/
def iterDateRange (start endD : ℤ) : List ℤ :=
  (List.range (endD + 1 - start).toNat).map (fun (i : ℕ) => start + (i : ℤ))

/-- Contribution of one hour to a day's total, as consumed by the loop in
`fetch`: an hour whose download raised after exhausting retries is skipped
(`continue` in the `except` arm) and a 404 (`-1` sentinel) only increments
`missing_hours`; both contribute zero.  Anything else is added as-is. -/
def hourContrib : Option ℤ → ℤ
  | none => 0
  | some n => if n = -1 then 0 else n

/-- Total of the 24 hourly slices attempted for day `d` (the inner
`for hour in range(24)` loop of `fetch`). -/
def dayCommits (data : ℤ → ℕ → Option ℤ) (d : ℤ) : ℤ :=
  ((List.range 24).map (fun h => hourContrib (data d h))).sum

/-- Python `set.add` on the model of `done_days` (a list without duplicates,
membership being all the code observes). -/
def doneAdd (done : List ℤ) (d : ℤ) : List ℤ :=
  if d ∈ done then done else done ++ [d]

/-- Ascending sort of day numbers, modelling `sorted(done_days)` inside
`save_checkpoint` (ISO date strings sort like their day numbers). -/
def sortDays (l : List ℤ) : List ℤ :=
  List.insertionSort (fun a b : ℤ => a ≤ b) l

/-- On-disk state of the two files the incremental path writes:
`.fetch_checkpoint` (a list of completed days) and `monthly_commits.csv`
(the month → count rows). -/
structure Disk where
  checkpointFile : List ℤ
  csvFile : List (ℕ × ℤ)
deriving DecidableEq

/-- In-memory state of the day loop in `fetch`, together with the disk it
writes through to. -/
structure LoopState where
  done : List ℤ
  totals : List (ℕ × ℤ)
  disk : Disk
deriving DecidableEq

/-- Body of the day loop of `fetch`: accumulate the day's 24 hourly slices,
add the day's total onto the month's running total
(`totals[month_key] = totals.get(month_key, 0) + day_commits`), add the day to
`done_days`, then persist the checkpoint and the CSV. -/
def processDay (monthOf : ℤ → ℕ) (data : ℤ → ℕ → Option ℤ)
    (s : LoopState) (d : ℤ) : LoopState :=
  let dc := dayCommits data d
  let mk := monthOf d
  let totals' := dictSet s.totals mk ((dictGet s.totals mk).getD 0 + dc)
  let done' := doneAdd s.done d
  { done := done'
    totals := totals'
    disk := { checkpointFile := sortDays done', csvFile := totals' } }

/-- Pending days of a run of `fetch`: the requested range minus the days
already checkpointed (all of the range when `force` cleared the set). -/
def pendingDays (done0 : List ℤ) (start endD : ℤ) : List ℤ :=
  (iterDateRange start endD).filter (fun d => decide (d ∉ done0))

/-- Embedding of `fetch(start, end, force=force)` run against disk state
`disk0`: returns the final disk state and the returned totals dict.  When
nothing is pending the function returns the loaded totals without writing. -/
def fetch (monthOf : ℤ → ℕ) (data : ℤ → ℕ → Option ℤ) (disk0 : Disk)
    (start endD : ℤ) (force : Bool) : Disk × List (ℕ × ℤ) :=
  let done0 := if force then [] else disk0.checkpointFile
  let totals0 := disk0.csvFile
  let pending := pendingDays done0 start endD
  if pending.isEmpty then (disk0, totals0)
  else
    let final := pending.foldl (processDay monthOf data) ⟨done0, totals0, disk0⟩
    (final.disk, final.totals)

/-- One step of the write trace of `fetch`: each processed day performs two
file writes in order — `save_checkpoint(done_days)` first, `save_csv(totals)`
second — so it contributes two observable disk states, the first of which has
the new checkpoint but still the previous CSV contents. -/
def traceStep (monthOf : ℤ → ℕ) (data : ℤ → ℕ → Option ℤ)
    (st : LoopState × List Disk) (d : ℤ) : LoopState × List Disk :=
  let s := st.1
  let s' := processDay monthOf data s d
  let afterCheckpointWrite : Disk :=
    { checkpointFile := s'.disk.checkpointFile, csvFile := s.disk.csvFile }
  (s', st.2 ++ [afterCheckpointWrite, s'.disk])

/-- All disk states reachable by interrupting a run of `fetch` at a write
boundary: the initial state, and after each individual file write of each
processed day. -/
def fetchTrace (monthOf : ℤ → ℕ) (data : ℤ → ℕ → Option ℤ) (disk0 : Disk)
    (start endD : ℤ) (force : Bool) : List Disk :=
  let done0 := if force then [] else disk0.checkpointFile
  let totals0 := disk0.csvFile
  let pending := pendingDays done0 start endD
  if pending.isEmpty then [disk0]
  else
    disk0 :: (pending.foldl (traceStep monthOf data) (⟨done0, totals0, disk0⟩, [])).2

/-! ## CSV persistence and the bulk-path merge -/

/-- Rows written by `save_csv(totals)` (after the constant header line): one
row per month, in ascending key order (`for month in sorted(totals)`). -/
def saveCsvRows (totals : List (ℕ × ℤ)) : List (ℕ × ℤ) :=
  List.insertionSort (fun a b : ℕ × ℤ => a.1 ≤ b.1) totals

/-- Mapping produced by `load_existing_csv()` from the stored rows:
`totals[row["month"]] = int(row["commits"])` over the rows in file order,
i.e. Python-dict insertion. -/
def loadCsvRows (rows : List (ℕ × ℤ)) : List (ℕ × ℤ) :=
  dictOfList rows

/-- Embedding of `existing.update(new_totals)` in `main.py`: every key of
`new_totals` is written into `existing`, overwriting on collision. -/
def dictUpdate (existing newTotals : List (ℕ × ℤ)) : List (ℕ × ℤ) :=
  newTotals.foldl (fun m p => dictSet m p.1 p.2) existing

/-! ## visualize.py — outlier smoothing

`cap_outliers` works on float64 values; all the arithmetic it performs on the
integer inputs of interest is exact, so it is modelled by exact fractions.
Every `Frac` built below has a positive denominator. -/

/-- Exact fraction of integers (numerator, denominator). -/
structure Frac where
  num : ℤ
  den : ℤ
deriving DecidableEq

/-- Order on fractions with positive denominators, by cross-multiplication. -/
def fle (a b : Frac) : Prop := a.num * b.den ≤ b.num * a.den

instance : DecidableRel fle := fun a b => by unfold fle; infer_instance

/-- Strict comparison on fractions with positive denominators, as a Bool. -/
def fltB (a b : Frac) : Bool := decide (a.num * b.den < b.num * a.den)

/-- Fraction addition. -/
def fadd (a b : Frac) : Frac := ⟨a.num * b.den + b.num * a.den, a.den * b.den⟩

/-- Fraction subtraction. -/
def fsub (a b : Frac) : Frac := ⟨a.num * b.den - b.num * a.den, a.den * b.den⟩

/-- Fraction multiplication. -/
def fmul (a b : Frac) : Frac := ⟨a.num * b.num, a.den * b.den⟩

/-- Fraction division by a positive fraction (the only divisions performed by
the smoothing code are by `mad + 1 > 0` and by a positive index gap). -/
def fdivPos (a b : Frac) : Frac := ⟨a.num * b.den, a.den * b.num⟩

/-- Absolute value of a fraction with positive denominator. -/
def fabs (a : Frac) : Frac := ⟨|a.num|, a.den⟩

/-- Mean of two fractions, used by the median of an even-length series. -/
def fhalfSum (a b : Frac) : Frac :=
  ⟨a.num * b.den + b.num * a.den, 2 * (a.den * b.den)⟩

/-- Median of a list of fractions, as `pandas.Series.median` computes it:
sort, take the middle element (odd length) or the mean of the two middle
elements (even length). -/
def medianF (l : List Frac) : Frac :=
  let s := List.insertionSort fle l
  let n := l.length
  if n % 2 = 1 then s.getD (n / 2) ⟨0, 1⟩
  else fhalfSum (s.getD (n / 2 - 1) ⟨0, 1⟩) (s.getD (n / 2) ⟨0, 1⟩)

/-- Latest valid (non-masked) entry strictly before position `i`, as linear
interpolation looks it up. -/
def validBefore (opt : List (Option Frac)) (i : ℕ) : Option (ℕ × Frac) :=
  (opt.enum.filterMap (fun p =>
    match p.2 with
    | some v => if p.1 < i then some (p.1, v) else none
    | none => none)).getLast?

/-- Earliest valid (non-masked) entry strictly after position `i`. -/
def validAfter (opt : List (Option Frac)) (i : ℕ) : Option (ℕ × Frac) :=
  (opt.enum.filterMap (fun p =>
    match p.2 with
    | some v => if i < p.1 then some (p.1, v) else none
    | none => none)).head?

/-- Value at position `i` after `interpolate(method="linear")` with pandas'
default `limit_direction="forward"`: a masked entry is linearly interpolated
between its surrounding valid entries; a masked entry with valid entries only
before it takes the last valid value; a masked entry with no valid entry
before it stays missing. -/
def interpolateAt (opt : List (Option Frac)) (i : ℕ) : Option Frac :=
  match opt.getD i none with
  | some v => some v
  | none =>
    match validBefore opt i, validAfter opt i with
    | some pv, some nv =>
        some (fadd pv.2 (fdivPos (fmul (fsub nv.2 pv.2) ⟨(i : ℤ) - (pv.1 : ℤ), 1⟩)
          ⟨(nv.1 : ℤ) - (pv.1 : ℤ), 1⟩))
    | some pv, none => some pv.2
    | none, _ => none

/-- Pointwise interpolation of a masked series. -/
def interpolateList (opt : List (Option Frac)) : List (Option Frac) :=
  (List.range opt.length).map (interpolateAt opt)

/-- Round half to even (the rounding of `Series.round`, i.e. IEEE `rint`). -/
def froundHalfEven (a : Frac) : ℤ :=
  let f := Int.fdiv a.num a.den
  let r := a.num - f * a.den
  if 2 * r < a.den then f
  else if 2 * r > a.den then f + 1
  else if f % 2 = 0 then f else f + 1

/-- Turn a list of optional values into an optional list, `none` when any
entry is missing — modelling that `astype("int64")` raises on a remaining
missing value (non-finite to integer cast). -/
def seqOptions {α : Type} : List (Option α) → Option (List α)
  | [] => some []
  | none :: _ => none
  | some a :: t => (seqOptions t).map (fun l => a :: l)

/-- Embedding of `cap_outliers(df)` at the default threshold 3.0, over rows of
(month key, commit count).  Computes the median and the median absolute
deviation of the counts, flags entries whose modified z-score
`0.6745·(x − median)/(mad + 1)` exceeds 3 in absolute value, and — when any
entry is flagged — masks the flagged entries, linearly interpolates, rounds,
and casts back to integers.  The result is `none` exactly when the cast
raises, i.e. when some entry is still missing after interpolation. -/
def capOutliers (rows : List (ℕ × ℤ)) : Option (List (ℕ × ℤ)) :=
  let vals : List Frac := rows.map (fun p => ⟨p.2, 1⟩)
  let med := medianF vals
  let mad := medianF (vals.map (fun x => fabs (fsub x med)))
  let flagged : Frac → Bool := fun x =>
    fltB ⟨3, 1⟩ (fabs (fdivPos (fmul ⟨6745, 10000⟩ (fsub x med)) (fadd mad ⟨1, 1⟩)))
  if vals.any flagged then
    let masked : List (Option Frac) := vals.map (fun x => if flagged x then none else some x)
    (seqOptions ((interpolateList masked).map (Option.map froundHalfEven))).map
      (fun vs => (rows.map (fun p => p.1)).zip vs)
  else some rows

/-! ## visualize.py — loading and restricting the series -/

/-- Embedding of `df.sort_values("date")` on the loaded rows: a stable sort by
month key (the parsed dates are in order-preserving bijection with keys). -/
def sortRowsByMonth (rows : List (ℕ × ℤ)) : List (ℕ × ℤ) :=
  List.insertionSort (fun a b : ℕ × ℤ => a.1 ≤ b.1) rows

/-- Embedding of the optional window restriction of `load_commits`:
`df = df[df["month"] >= start_month]` and `df = df[df["month"] <= end_month]`,
each applied only when the bound is given. -/
def filterRange (rows : List (ℕ × ℤ)) (startM endM : Option ℕ) : List (ℕ × ℤ) :=
  let r1 := match startM with
    | some s => rows.filter (fun p => decide (s ≤ p.1))
    | none => rows
  match endM with
  | some e => r1.filter (fun p => decide (p.1 ≤ e))
  | none => r1

/-- Embedding of `load_commits(csv_path, start_month, end_month)` applied to
the rows read from the CSV, in file order: sort by date, restrict to the
requested window, then smooth outliers — in that order, as the source does. -/
def load_commits (rows : List (ℕ × ℤ)) (startM endM : Option ℕ) :
    Option (List (ℕ × ℤ)) :=
  capOutliers (filterRange (sortRowsByMonth rows) startM endM)

/-- Comparator for the ordering claim, following the spec's words (smoothing
"must run over the full loaded series before any date-range restriction is
applied for display"): sort, smooth the full series, then restrict. -/
def loadCommitsSpecOrder (rows : List (ℕ × ℤ)) (startM endM : Option ℕ) :
    Option (List (ℕ × ℤ)) :=
  (capOutliers (sortRowsByMonth rows)).map (fun full => filterRange full startM endM)

/-! ## visualize.py — annotation label stagger -/

/-- `ANNOTATION_LEVELS = 6`. -/
def annotationLevels : ℕ := 6

/-- `MIN_DAY_GAP = 20`; event dates are day numbers, and Python's
`(ev_date - last).days` is exact integer day difference. -/
def minDayGap : ℤ := 20

/-- Scan of the inner loop of `assign_levels`: the first level (from level 0
up) whose last-placed date is unset or at least `minDayGap` days before the
event's date; `none` when no level qualifies. -/
def findLevel (levelLast : ℕ → Option ℤ) (evDate : ℤ) : Option ℕ :=
  (List.range annotationLevels).find? (fun lvl =>
    match levelLast lvl with
    | none => true
    | some last => decide (evDate - last ≥ minDayGap))

/-- State update of one iteration of `assign_levels`: record the event's date
as the last-placed date of the level it was assigned (the scanned level, or
the level-0 fallback when the scan found none). -/
def stepState (levelLast : ℕ → Option ℤ) (evDate : ℤ) : ℕ → Option ℤ :=
  let a := (findLevel levelLast evDate).getD 0
  fun l => if l = a then some evDate else levelLast l

/-- Levels assigned to a list of event dates starting from a given
`level_last` state. -/
def levelsFrom (levelLast : ℕ → Option ℤ) : List ℤ → List ℕ
  | [] => []
  | d :: ds => (findLevel levelLast d).getD 0 :: levelsFrom (stepState levelLast d) ds

/-- Embedding of `assign_levels(events)`, on the events' dates: the initial
`level_last` dictionary is empty. -/
def assign_levels (dates : List ℤ) : List ℕ :=
  levelsFrom (fun _ => none) dates

/-- The `level_last` state after processing a list of event dates. -/
def stateFrom (levelLast : ℕ → Option ℤ) (ds : List ℤ) : ℕ → Option ℤ :=
  ds.foldl stepState levelLast

/-! ## llm_events.py — the hardcoded release catalog -/

/-- Calendar date as stored in the catalog (`datetime.date(y, m, d)`). -/
structure SimpleDate where
  y : ℕ
  m : ℕ
  d : ℕ
deriving DecidableEq

/-- Python `date` comparison: lexicographic on (year, month, day). -/
def dateLe (a b : SimpleDate) : Bool :=
  decide (a.y < b.y ∨ (a.y = b.y ∧ (a.m < b.m ∨ (a.m = b.m ∧ a.d ≤ b.d))))

/-- One event dict as built by `get_events_as_dicts`. -/
structure RelEvent where
  model : String
  org : String
  date : SimpleDate
  color : String
deriving DecidableEq

/-- `ORG_COLORS`. -/
def orgColors : List (String × String) :=
  [("OpenAI", "#10a37f"), ("Anthropic", "#c97d4e"), ("Google", "#4285f4"),
   ("Meta", "#1877f2"), ("Mistral", "#7c3aed"), ("Microsoft", "#00a4ef"),
   ("Cohere", "#d946ef"), ("xAI", "#000000"), ("DeepSeek", "#e11d48"),
   ("Other", "#6b7280")]

/-- `ORG_COLORS.get(org, ORG_COLORS["Other"])`. -/
def colorFor (org : String) : String :=
  ((orgColors.find? (fun p => p.1 = org)).map (fun p => p.2)).getD "#6b7280"

/-- `LLM_RELEASES`, verbatim from the source, in source order. -/
def llmReleases : List (String × String × SimpleDate) :=
  [("GPT-3", "OpenAI", ⟨2020, 6, 11⟩),
   ("GitHub Copilot", "Microsoft", ⟨2021, 6, 29⟩),
   ("CodeX", "OpenAI", ⟨2021, 8, 10⟩),
   ("ChatGPT", "OpenAI", ⟨2022, 11, 30⟩),
   ("Llama 1", "Meta", ⟨2023, 2, 24⟩),
   ("GPT-4", "OpenAI", ⟨2023, 3, 14⟩),
   ("Claude 1", "Anthropic", ⟨2023, 3, 14⟩),
   ("Bard", "Google", ⟨2023, 3, 21⟩),
   ("Falcon 40B", "Other", ⟨2023, 5, 23⟩),
   ("PaLM 2", "Google", ⟨2023, 5, 10⟩),
   ("Claude 2", "Anthropic", ⟨2023, 7, 11⟩),
   ("Llama 2", "Meta", ⟨2023, 7, 18⟩),
   ("Mistral 7B", "Mistral", ⟨2023, 9, 27⟩),
   ("GPT-4 Turbo", "OpenAI", ⟨2023, 11, 6⟩),
   ("Gemini 1.0", "Google", ⟨2023, 12, 6⟩),
   ("Mixtral 8x7B", "Mistral", ⟨2023, 12, 11⟩),
   ("Gemini 1.5 Pro", "Google", ⟨2024, 2, 15⟩),
   ("Claude 3 Opus", "Anthropic", ⟨2024, 3, 4⟩),
   ("DBRX", "Other", ⟨2024, 3, 27⟩),
   ("Llama 3 8/70B", "Meta", ⟨2024, 4, 18⟩),
   ("GPT-4o", "OpenAI", ⟨2024, 5, 13⟩),
   ("Claude 3.5 Sonnet", "Anthropic", ⟨2024, 6, 20⟩),
   ("Llama 3.1 405B", "Meta", ⟨2024, 7, 23⟩),
   ("Mistral Large 2", "Mistral", ⟨2024, 7, 24⟩),
   ("GPT-4o mini", "OpenAI", ⟨2024, 7, 18⟩),
   ("Grok-2", "xAI", ⟨2024, 8, 13⟩),
   ("o1-preview", "OpenAI", ⟨2024, 9, 12⟩),
   ("Claude 3.5 Haiku", "Anthropic", ⟨2024, 10, 22⟩),
   ("Llama 3.2", "Meta", ⟨2024, 9, 25⟩),
   ("Gemini 2.0 Flash", "Google", ⟨2024, 12, 11⟩),
   ("DeepSeek V3", "DeepSeek", ⟨2024, 12, 26⟩),
   ("DeepSeek R1", "DeepSeek", ⟨2025, 1, 20⟩),
   ("o3-mini", "OpenAI", ⟨2025, 1, 31⟩),
   ("Claude 3.7 Sonnet", "Anthropic", ⟨2025, 2, 24⟩),
   ("Gemini 2.0 Pro", "Google", ⟨2025, 2, 5⟩),
   ("Llama 4", "Meta", ⟨2025, 4, 5⟩),
   ("GPT-4.1", "OpenAI", ⟨2025, 4, 14⟩),
   ("Claude 4 Sonnet", "Anthropic", ⟨2025, 5, 22⟩),
   ("Gemini 2.5 Pro", "Google", ⟨2025, 3, 25⟩)]

/-- `get_events_as_dicts()`. -/
def getEventsAsDicts : List RelEvent :=
  llmReleases.map (fun t => ⟨t.1, t.2.1, t.2.2, colorFor t.2.1⟩)

/-- `get_events_in_range(start, end)`: keep events with
`start <= e["date"] <= end`, preserving catalog order. -/
def getEventsInRange (start endD : SimpleDate) : List RelEvent :=
  getEventsAsDicts.filter (fun e => dateLe start e.date && dateLe e.date endD)

/-! ## Helper lemmas about the dictionary model -/

theorem find?_key_map_set (t : List (ℕ × ℤ)) (k k' : ℕ) (v : ℤ) :
    List.find? (fun q => decide (q.1 = k)) (t.map (fun q => if q.1 = k' then (k', v) else q)) =
      Option.map (fun q => if q.1 = k' then (k', v) else q)
        (List.find? (fun q => decide (q.1 = k)) t) := by
  rw [List.find?_map]
  have hpred : ((fun q : ℕ × ℤ => decide (q.1 = k)) ∘ fun q => if q.1 = k' then (k', v) else q) =
      (fun q : ℕ × ℤ => decide (q.1 = k)) := by
    funext q
    by_cases hq : q.1 = k'
    · simp [Function.comp, hq]
    · simp [Function.comp, hq]
  rw [hpred]

theorem dictGet_dictSet_self (m : List (ℕ × ℤ)) (k : ℕ) (v : ℤ) :
    dictGet (dictSet m k v) k = some v := by
  unfold dictGet dictSet
  by_cases hm : (m.any fun q => decide (q.1 = k)) = true
  · simp only [hm, if_true]
    have hsome : (List.find? (fun q => decide (q.1 = k)) m).isSome := by
      rw [List.find?_isSome]
      simpa using hm
    obtain ⟨a, ha⟩ := Option.isSome_iff_exists.mp hsome
    have hak : a.1 = k := by simpa using List.find?_some ha
    rw [find?_key_map_set, ha]
    simp [hak]
  · simp only [hm, if_false]
    have hno : ¬ ∃ x ∈ m, x.1 = k := by simpa using hm
    have htn : m.find? (fun q => decide (q.1 = k)) = none := by
      rw [List.find?_eq_none]
      intro x hx hc
      exact hno ⟨x, hx, by simpa using hc⟩
    simp [List.find?_append, htn, List.find?]

theorem dictGet_dictSet_ne (m : List (ℕ × ℤ)) (k k' : ℕ) (v : ℤ) (h : k ≠ k') :
    dictGet (dictSet m k' v) k = dictGet m k := by
  unfold dictGet dictSet
  by_cases hm : (m.any fun q => decide (q.1 = k')) = true
  · simp only [hm, if_true]
    rw [find?_key_map_set]
    cases hf : List.find? (fun q => decide (q.1 = k)) m with
    | none => simp
    | some a =>
      have hak : a.1 = k := by simpa using List.find?_some hf
      have hak' : ¬ a.1 = k' := by rw [hak]; exact h
      simp [hak']
  · simp only [hm, if_false]
    have : List.find? (fun q => decide (q.1 = k)) [(k', v)] = none := by
      simp [List.find?, Ne.symm h]
    simp [List.find?_append, this]

/-- Keys untouched by `dict.update` keep their value. -/
theorem dictGet_dictUpdate_not_mem (e : List (ℕ × ℤ)) (n : List (ℕ × ℤ)) (k : ℕ)
    (hk : k ∉ n.map Prod.fst) :
    dictGet (dictUpdate e n) k = dictGet e k := by
  induction n generalizing e with
  | nil => rfl
  | cons p t ih =>
    have hk1 : k ≠ p.1 := by
      intro hh
      exact hk (by simp [hh])
    have hkt : k ∉ t.map Prod.fst := fun hh => hk (by simp [hh])
    show dictGet (dictUpdate (dictSet e p.1 p.2) t) k = dictGet e k
    rw [ih (dictSet e p.1 p.2) hkt, dictGet_dictSet_ne _ _ _ _ hk1]

/-- On a key of `new_totals`, `existing.update(new_totals)` yields the value
`new_totals` holds for it (keys of a dict are distinct). -/
theorem dictGet_dictUpdate_mem (e : List (ℕ × ℤ)) (n : List (ℕ × ℤ)) (k : ℕ)
    (hnd : (n.map Prod.fst).Nodup) (hk : k ∈ n.map Prod.fst) :
    dictGet (dictUpdate e n) k = dictGet n k := by
  induction n generalizing e with
  | nil => simp at hk
  | cons p t ih =>
    rw [List.map_cons] at hnd
    obtain ⟨h1, hnd'⟩ := List.nodup_cons.mp hnd
    by_cases hp : k = p.1
    · have hkt : k ∉ t.map Prod.fst := by rw [hp]; exact h1
      show dictGet (dictUpdate (dictSet e p.1 p.2) t) k = dictGet (p :: t) k
      rw [dictGet_dictUpdate_not_mem _ _ _ hkt, hp, dictGet_dictSet_self]
      simp [dictGet, List.find?]
    · have hkt : k ∈ t.map Prod.fst := by
        rcases (by simpa using hk : k = p.1 ∨ k ∈ t.map Prod.fst) with hh | hh
        · exact absurd hh hp
        · exact hh
      show dictGet (dictUpdate (dictSet e p.1 p.2) t) k = dictGet (p :: t) k
      rw [ih _ hnd' hkt]
      have hp' : ¬ p.1 = k := fun hh => hp hh.symm
      simp [dictGet, List.find?, hp']

/-! ## Helper lemmas about the incremental fetch loop -/

theorem mem_doneAdd (done : List ℤ) (d x : ℤ) :
    x ∈ doneAdd done d ↔ x ∈ done ∨ x = d := by
  unfold doneAdd
  by_cases h : d ∈ done
  · simp only [h, if_true]
    constructor
    · exact Or.inl
    · rintro (hx | rfl)
      · exact hx
      · exact h
  · simp [h]

theorem mem_sortDays (l : List ℤ) (x : ℤ) : x ∈ sortDays l ↔ x ∈ l :=
  (List.perm_insertionSort _ l).mem_iff

theorem mem_foldl_processDay_done (monthOf : ℤ → ℕ) (data : ℤ → ℕ → Option ℤ)
    (l : List ℤ) (s : LoopState) (x : ℤ) :
    x ∈ (l.foldl (processDay monthOf data) s).done ↔ x ∈ s.done ∨ x ∈ l := by
  induction l generalizing s with
  | nil => simp
  | cons d ds ih =>
    rw [List.foldl_cons, ih]
    have hdone : (processDay monthOf data s d).done = doneAdd s.done d := rfl
    rw [hdone, mem_doneAdd]
    constructor
    · rintro ((hx | rfl) | hx)
      · exact Or.inl hx
      · exact Or.inr (List.mem_cons_self _ _)
      · exact Or.inr (List.mem_cons_of_mem _ hx)
    · rintro (hx | hx)
      · exact Or.inl (Or.inl hx)
      · rcases List.mem_cons.mp hx with rfl | hx
        · exact Or.inl (Or.inr rfl)
        · exact Or.inr hx

/-- After at least one processed day, the on-disk files mirror the in-memory
state (they are rewritten at the end of every day). -/
theorem foldl_processDay_disk (monthOf : ℤ → ℕ) (data : ℤ → ℕ → Option ℤ)
    (l : List ℤ) (s : LoopState) (h : l ≠ []) :
    (l.foldl (processDay monthOf data) s).disk =
      { checkpointFile := sortDays (l.foldl (processDay monthOf data) s).done,
        csvFile := (l.foldl (processDay monthOf data) s).totals } := by
  induction l generalizing s with
  | nil => exact absurd rfl h
  | cons d ds ih =>
    rw [List.foldl_cons]
    cases hds : ds with
    | nil => rfl
    | cons d' ds' =>
      rw [← hds]
      exact ih _ (by simp [hds])

theorem mem_iterDateRange (start endD d : ℤ) :
    d ∈ iterDateRange start endD ↔ start ≤ d ∧ d ≤ endD := by
  unfold iterDateRange
  simp only [List.mem_map, List.mem_range]
  constructor
  · rintro ⟨i, hi, rfl⟩
    omega
  · rintro ⟨h1, h2⟩
    exact ⟨(d - start).toNat, by omega, by omega⟩

theorem mem_pendingDays (done0 : List ℤ) (start endD d : ℤ) :
    d ∈ pendingDays done0 start endD ↔ start ≤ d ∧ d ≤ endD ∧ d ∉ done0 := by
  unfold pendingDays
  rw [List.mem_filter, mem_iterDateRange]
  simp [and_assoc]

theorem pendingDays_eq_nil_iff (done0 : List ℤ) (start endD : ℤ) :
    pendingDays done0 start endD = [] ↔
      ∀ d : ℤ, start ≤ d → d ≤ endD → d ∈ done0 := by
  constructor
  · intro h d h1 h2
    by_contra hc
    have : d ∈ pendingDays done0 start endD := (mem_pendingDays _ _ _ _).mpr ⟨h1, h2, hc⟩
    rw [h] at this
    exact absurd this (List.not_mem_nil d)
  · intro h
    rw [List.eq_nil_iff_forall_not_mem]
    intro d hd
    rw [mem_pendingDays] at hd
    exact hd.2.2 (h d hd.1 hd.2.1)

/-! ## Claim C2 — month re-fetch: overwrite vs. add -/

/-- C2, counterexample.  Cache holds 500 for month 202001 and day 0 (the
month's only archived day in this scenario) is checkpointed; re-fetching the
month's day with `force` yields a freshly fetched month value of 300, but the
incremental path stores `500 + 300 = 800` — it adds the new value to the
pre-existing total instead of replacing the stored total with 300. -/
theorem refetch_month_adds_counterexample :
    (fetch (fun _ => 202001) (fun _ h => if h = 0 then some 300 else some 0)
      (Disk.mk [0] [(202001, 500)]) 0 0 true).2 = [(202001, 800)] ∧
    (500 : ℤ) + 300 = 800 ∧
    ¬ (fetch (fun _ => 202001) (fun _ h => if h = 0 then some 300 else some 0)
      (Disk.mk [0] [(202001, 500)]) 0 0 true).2 = [(202001, 300)] := by
  decide

/-- C2, amended: re-fetching a month via the bulk path
(`existing.update(new_totals)`) replaces the stored total with the newly
fetched value; the incremental path instead always adds each processed day's
contribution onto the month's stored total, so re-fetching a month's days
(e.g. with `force`) sums with the pre-existing total rather than replacing
it. -/
theorem month_refetch_merge_semantics (existing newTotals : List (ℕ × ℤ)) (k : ℕ)
    (hnd : (newTotals.map Prod.fst).Nodup) (hk : k ∈ newTotals.map Prod.fst)
    (monthOf : ℤ → ℕ) (data : ℤ → ℕ → Option ℤ) (s : LoopState) (d : ℤ) :
    dictGet (dictUpdate existing newTotals) k = dictGet newTotals k ∧
    dictGet (processDay monthOf data s d).totals (monthOf d) =
      some ((dictGet s.totals (monthOf d)).getD 0 + dayCommits data d) :=
  ⟨dictGet_dictUpdate_mem _ _ _ hnd hk, dictGet_dictSet_self _ _ _⟩

/-- Witness for the amended C2 theorem at a concrete overwrite/add pair. -/
theorem month_refetch_merge_semantics_witness :
    (([((202001 : ℕ), (300 : ℤ))].map Prod.fst).Nodup ∧
      (202001 : ℕ) ∈ [((202001 : ℕ), (300 : ℤ))].map Prod.fst) ∧
    dictGet (dictUpdate [(202001, 500)] [(202001, 300)]) 202001 =
        dictGet [(202001, 300)] 202001 ∧
    dictGet (processDay (fun _ => 202001) (fun _ _ => some 10)
        (LoopState.mk [] [(202001, 500)] (Disk.mk [] [(202001, 500)])) 0).totals 202001 =
      some ((dictGet [(202001, 500)] 202001).getD 0 +
        dayCommits (fun _ _ => some 10) 0) :=
  ⟨⟨by decide, by decide⟩,
    month_refetch_merge_semantics [(202001, 500)] [(202001, 300)] 202001
      (by decide) (by decide) (fun _ => 202001) (fun _ _ => some 10)
      (LoopState.mk [] [(202001, 500)] (Disk.mk [] [(202001, 500)])) 0⟩

/-! ## Claim C3 — per-day on-disk atomicity -/

/-- C3: the two per-day writes are not atomic.  Running the incremental fetch
for the single day 0 (worth 300 commits of month 202001) from empty files,
the state `⟨checkpoint = [0], csv = []⟩` is reachable by interrupting between
`save_checkpoint` and `save_csv`: day 0 is checkpointed while its contribution
is absent from the cache.  Resuming from that state returns an empty totals
mapping — the day is skipped and its data is permanently lost (an
uninterrupted run returns 300 for the month). -/
theorem interrupted_day_checkpointed_without_csv :
    Disk.mk [0] [] ∈ fetchTrace (fun _ => 202001)
        (fun _ h => if h = 0 then some 300 else some 0) (Disk.mk [] []) 0 0 false ∧
    (0 : ℤ) ∈ (Disk.mk [0] ([] : List (ℕ × ℤ))).checkpointFile ∧
    dictGet (Disk.mk ([0] : List ℤ) ([] : List (ℕ × ℤ))).csvFile 202001 = none ∧
    (fetch (fun _ => 202001) (fun _ h => if h = 0 then some 300 else some 0)
        (Disk.mk [0] []) 0 0 false).2 = [] ∧
    (fetch (fun _ => 202001) (fun _ h => if h = 0 then some 300 else some 0)
        (Disk.mk [] []) 0 0 false).2 = [(202001, 300)] := by
  decide

/-! ## Claim C4 — every hour attempted, day always completed -/

/-- C4: for any pending day, the loop body of `fetch` accumulates the
contributions of all 24 hourly slices (hours whose download raised after
exhausting retries, modelled `none`, and 404s, modelled `some (-1)`,
contribute zero — as the last two conjuncts state) and then unconditionally
adds the day to the completed set; the month total grows by exactly the sum
over hours 0..23. -/
theorem day_attempts_all_hours_then_completes (monthOf : ℤ → ℕ)
    (data : ℤ → ℕ → Option ℤ) (s : LoopState) (d : ℤ) :
    (processDay monthOf data s d).done = doneAdd s.done d ∧
    d ∈ (processDay monthOf data s d).done ∧
    dictGet (processDay monthOf data s d).totals (monthOf d) =
      some ((dictGet s.totals (monthOf d)).getD 0 +
        ((List.range 24).map (fun h => hourContrib (data d h))).sum) ∧
    hourContrib none = 0 ∧
    hourContrib (some (-1)) = 0 := by
  refine ⟨rfl, ?_, ?_, rfl, by decide⟩
  · rw [show (processDay monthOf data s d).done = doneAdd s.done d from rfl, mem_doneAdd]
    exact Or.inr rfl
  · exact dictGet_dictSet_self _ _ _

/-! ## Claims C5 and C9 — idempotence and the force reset -/

theorem fetch_of_pending_nil (monthOf : ℤ → ℕ) (data : ℤ → ℕ → Option ℤ)
    (disk0 : Disk) (start endD : ℤ) (force : Bool)
    (h : pendingDays (if force then [] else disk0.checkpointFile) start endD = []) :
    fetch monthOf data disk0 start endD force = (disk0, disk0.csvFile) := by
  unfold fetch
  simp only [h, List.isEmpty_nil, if_true]

theorem fetch_of_pending_ne_nil (monthOf : ℤ → ℕ) (data : ℤ → ℕ → Option ℤ)
    (disk0 : Disk) (start endD : ℤ) (force : Bool)
    (h : pendingDays (if force then [] else disk0.checkpointFile) start endD ≠ []) :
    fetch monthOf data disk0 start endD force =
      (((pendingDays (if force then [] else disk0.checkpointFile) start endD).foldl
          (processDay monthOf data)
          ⟨if force then [] else disk0.checkpointFile, disk0.csvFile, disk0⟩).disk,
       ((pendingDays (if force then [] else disk0.checkpointFile) start endD).foldl
          (processDay monthOf data)
          ⟨if force then [] else disk0.checkpointFile, disk0.csvFile, disk0⟩).totals) := by
  unfold fetch
  have hne : (pendingDays (if force then [] else disk0.checkpointFile) start endD).isEmpty =
      false := by
    rw [List.isEmpty_eq_false]
    exact h
  simp only [hne, Bool.false_eq_true, if_false]

/-- Every day of the requested range is checkpointed on disk after a run of
`fetch` over that range. -/
theorem fetch_range_checkpointed (monthOf : ℤ → ℕ) (data : ℤ → ℕ → Option ℤ)
    (disk0 : Disk) (start endD : ℤ) (force : Bool) (d : ℤ)
    (h1 : start ≤ d) (h2 : d ≤ endD) :
    d ∈ (fetch monthOf data disk0 start endD force).1.checkpointFile := by
  by_cases h : pendingDays (if force then [] else disk0.checkpointFile) start endD = []
  · rw [fetch_of_pending_nil monthOf data disk0 start endD force h]
    have hd : d ∈ (if force then [] else disk0.checkpointFile) :=
      (pendingDays_eq_nil_iff _ _ _).mp h d h1 h2
    cases force with
    | false => simpa using hd
    | true => simp at hd
  · rw [fetch_of_pending_ne_nil monthOf data disk0 start endD force h]
    rw [foldl_processDay_disk monthOf data _ _ h]
    rw [mem_sortDays, mem_foldl_processDay_done]
    by_cases hd : d ∈ (if force then [] else disk0.checkpointFile)
    · exact Or.inl (by simpa using hd)
    · exact Or.inr ((mem_pendingDays _ _ _ _).mpr ⟨h1, h2, hd⟩)

/-- C5: running the incremental fetch a second time over the same range
without `force` is a no-op: the pending set computed by the second run is
empty, and the second run returns exactly the first run's resulting disk and
totals — it performs no writes (the empty-pending branch of `fetch` returns
the loaded totals unmodified). -/
theorem fetch_second_run_is_noop (monthOf : ℤ → ℕ) (data : ℤ → ℕ → Option ℤ)
    (disk0 : Disk) (start endD : ℤ) (force : Bool) :
    pendingDays (fetch monthOf data disk0 start endD force).1.checkpointFile start endD = [] ∧
    fetch monthOf data (fetch monthOf data disk0 start endD force).1 start endD false =
      fetch monthOf data disk0 start endD force := by
  have hpend :
      pendingDays (fetch monthOf data disk0 start endD force).1.checkpointFile start endD = [] := by
    rw [pendingDays_eq_nil_iff]
    intro d h1 h2
    exact fetch_range_checkpointed monthOf data disk0 start endD force d h1 h2
  refine ⟨hpend, ?_⟩
  have hsecond := fetch_of_pending_nil monthOf data
    (fetch monthOf data disk0 start endD force).1 start endD false (by simpa using hpend)
  rw [hsecond]
  by_cases h : pendingDays (if force then [] else disk0.checkpointFile) start endD = []
  · rw [fetch_of_pending_nil monthOf data disk0 start endD force h]
  · rw [fetch_of_pending_ne_nil monthOf data disk0 start endD force h]
    rw [foldl_processDay_disk monthOf data _ _ h]

/-- C9: a `force` run over a (nonempty) date range rewrites the checkpoint
file to contain exactly the days of that range — `done_days` starts from the
empty set, collects only the processed days, and `save_checkpoint` overwrites
the file with it — so any previously checkpointed day outside the range is
dropped, and a later non-`force` run over such a day finds it pending
again. -/
theorem force_run_resets_checkpoint_to_range (monthOf : ℤ → ℕ)
    (data : ℤ → ℕ → Option ℤ) (disk0 : Disk) (start endD : ℤ)
    (h : start ≤ endD) (d : ℤ) :
    (d ∈ (fetch monthOf data disk0 start endD true).1.checkpointFile ↔
      start ≤ d ∧ d ≤ endD) ∧
    (¬ (start ≤ d ∧ d ≤ endD) →
      d ∈ pendingDays (fetch monthOf data disk0 start endD true).1.checkpointFile d d) := by
  have hne : pendingDays (if true then [] else disk0.checkpointFile) start endD ≠ [] := by
    intro hc
    have := (pendingDays_eq_nil_iff _ _ _).mp hc start le_rfl h
    simp at this
  have hmem : ∀ x : ℤ,
      x ∈ (fetch monthOf data disk0 start endD true).1.checkpointFile ↔
        start ≤ x ∧ x ≤ endD := by
    intro x
    rw [fetch_of_pending_ne_nil monthOf data disk0 start endD true hne]
    rw [foldl_processDay_disk monthOf data _ _ hne]
    rw [mem_sortDays, mem_foldl_processDay_done]
    constructor
    · rintro (hx | hx)
      · simp at hx
      · have := (mem_pendingDays _ _ _ _).mp hx
        exact ⟨this.1, this.2.1⟩
    · rintro ⟨hx1, hx2⟩
      exact Or.inr ((mem_pendingDays _ _ _ _).mpr
        ⟨hx1, hx2, by simp⟩)
  refine ⟨hmem d, ?_⟩
  intro hout
  rw [mem_pendingDays]
  refine ⟨le_rfl, le_rfl, ?_⟩
  intro hc
  exact hout ((hmem d).mp hc)

/-- Witness for C9: with days 0..1 forced, the previously checkpointed day 5
is no longer checkpointed afterwards and becomes pending for a later run. -/
theorem force_run_resets_checkpoint_to_range_witness :
    ((0 : ℤ) ≤ 1 ∧ ¬ ((0 : ℤ) ≤ 5 ∧ (5 : ℤ) ≤ 1)) ∧
    (((5 : ℤ) ∈ (fetch (fun _ => 202001) (fun _ _ => some 0)
        (Disk.mk [5] [(202001, 7)]) 0 1 true).1.checkpointFile ↔
      (0 : ℤ) ≤ 5 ∧ (5 : ℤ) ≤ 1) ∧
     (¬ ((0 : ℤ) ≤ 5 ∧ (5 : ℤ) ≤ 1) →
      (5 : ℤ) ∈ pendingDays (fetch (fun _ => 202001) (fun _ _ => some 0)
        (Disk.mk [5] [(202001, 7)]) 0 1 true).1.checkpointFile 5 5)) :=
  ⟨⟨by decide, by decide⟩,
    force_run_resets_checkpoint_to_range (fun _ => 202001) (fun _ _ => some 0)
      (Disk.mk [5] [(202001, 7)]) 0 1 (by decide) 5⟩

/-! ## Claim C7 — lossless CSV round-trip -/

instance keyLeTotal : IsTotal (ℕ × ℤ) (fun a b : ℕ × ℤ => a.1 ≤ b.1) :=
  ⟨fun a b => Nat.le_total a.1 b.1⟩

instance keyLeTrans : IsTrans (ℕ × ℤ) (fun a b : ℕ × ℤ => a.1 ≤ b.1) :=
  ⟨fun _ _ _ h1 h2 => le_trans h1 h2⟩

/-- Rebuilding a dict from rows with pairwise-distinct keys keeps the rows:
every insertion appends, because no key is ever seen twice. -/
theorem foldl_dictSet_of_nodup (l : List (ℕ × ℤ)) (acc : List (ℕ × ℤ))
    (hl : (l.map Prod.fst).Nodup)
    (hdisj : ∀ p ∈ l, (acc.any fun q => decide (q.1 = p.1)) = false) :
    l.foldl (fun m p => dictSet m p.1 p.2) acc = acc ++ l := by
  induction l generalizing acc with
  | nil => simp
  | cons p t ih =>
    rw [List.map_cons] at hl
    obtain ⟨hp, hl'⟩ := List.nodup_cons.mp hl
    have hap : (acc.any fun q => decide (q.1 = p.1)) = false :=
      hdisj p (List.mem_cons_self _ _)
    have hstep : dictSet acc p.1 p.2 = acc ++ [p] := by
      unfold dictSet
      rw [if_neg (by simp [hap])]
    have hdisj' : ∀ q ∈ t, ((acc ++ [p]).any fun r => decide (r.1 = q.1)) = false := by
      intro q hq
      rw [List.any_append]
      have h1 : (acc.any fun r => decide (r.1 = q.1)) = false :=
        hdisj q (List.mem_cons_of_mem _ hq)
      have hpq : p.1 ≠ q.1 := by
        intro hc
        exact hp (hc ▸ List.mem_map_of_mem Prod.fst hq)
      have h2 : ([p].any fun r => decide (r.1 = q.1)) = false := by
        simp [hpq]
      simp [h1, h2]
    rw [List.foldl_cons, hstep, ih (acc ++ [p]) hl' hdisj']
    simp

theorem dictOfList_of_nodup (l : List (ℕ × ℤ)) (hl : (l.map Prod.fst).Nodup) :
    dictOfList l = l := by
  unfold dictOfList
  rw [foldl_dictSet_of_nodup l [] hl (by intro p _; rfl)]
  simp

/-- C7: re-loading and re-saving a saved mapping reproduces the rows exactly
(structurally identical rows in identical order, hence byte-identical lines
under the fixed `month,commits` rendering), and the saved rows are sorted
ascending by month. -/
theorem csv_round_trip (m : List (ℕ × ℤ)) (hnd : (m.map Prod.fst).Nodup) :
    saveCsvRows (loadCsvRows (saveCsvRows m)) = saveCsvRows m ∧
    List.Pairwise (fun a b : ℕ × ℤ => a.1 ≤ b.1) (saveCsvRows m) := by
  have hperm : (saveCsvRows m).Perm m := List.perm_insertionSort _ m
  have hnd' : ((saveCsvRows m).map Prod.fst).Nodup :=
    ((hperm.map Prod.fst).nodup_iff).mpr hnd
  have hsorted : List.Pairwise (fun a b : ℕ × ℤ => a.1 ≤ b.1) (saveCsvRows m) :=
    List.sorted_insertionSort _ m
  refine ⟨?_, hsorted⟩
  unfold loadCsvRows
  rw [dictOfList_of_nodup _ hnd']
  exact List.Sorted.insertionSort_eq hsorted

/-- Witness for C7 at a concrete two-month mapping. -/
theorem csv_round_trip_witness :
    (([((202002 : ℕ), (5 : ℤ)), (202001, 7)].map Prod.fst).Nodup) ∧
    saveCsvRows (loadCsvRows (saveCsvRows [(202002, 5), (202001, 7)])) =
        saveCsvRows [(202002, 5), (202001, 7)] ∧
    List.Pairwise (fun a b : ℕ × ℤ => a.1 ≤ b.1)
      (saveCsvRows [(202002, 5), (202001, 7)]) :=
  ⟨by decide,
    (csv_round_trip [(202002, 5), (202001, 7)] (by decide)).1,
    (csv_round_trip [(202002, 5), (202001, 7)] (by decide)).2⟩

/-! ## Claims C1 and C8 — smoothing order and boundary behaviour -/

/-- C1, counterexample.  On a five-month series with a spike in the third
month, restricting to months ≥ 202003 before smoothing (as the code does)
flags the spike at the window boundary with no in-window left neighbor: the
leading missing value survives forward interpolation and the integer cast
fails, so `load_commits` diverges from the spec's order (smooth first, then
restrict), which interpolates the spike from its out-of-window neighbors and
succeeds. -/
theorem cap_runs_after_restrict_counterexample :
    load_commits [(202001, 100), (202002, 100), (202003, 1000), (202004, 100), (202005, 100)]
        (some 202003) none = none ∧
    loadCommitsSpecOrder
        [(202001, 100), (202002, 100), (202003, 1000), (202004, 100), (202005, 100)]
        (some 202003) none = some [(202003, 100), (202004, 100), (202005, 100)] ∧
    load_commits [(202001, 100), (202002, 100), (202003, 1000), (202004, 100), (202005, 100)]
        (some 202003) none ≠
      loadCommitsSpecOrder
        [(202001, 100), (202002, 100), (202003, 1000), (202004, 100), (202005, 100)]
        (some 202003) none := by
  decide

/-- C1, amended: the start-month/end-month restriction is applied before
`cap_outliers`, so the displayed series is a function of the in-window rows
alone — outlier flagging and interpolation never see points outside the
requested window (boundary points are interpolated, or fail, without
out-of-window neighbors). -/
theorem load_commits_depends_only_on_window (rows rowsB : List (ℕ × ℤ))
    (startM endM : Option ℕ)
    (h : filterRange (sortRowsByMonth rows) startM endM =
      filterRange (sortRowsByMonth rowsB) startM endM) :
    load_commits rows startM endM = load_commits rowsB startM endM := by
  unfold load_commits
  rw [h]

/-- Witness for the amended C1 theorem: adding an out-of-window row does not
change the displayed series. -/
theorem load_commits_depends_only_on_window_witness :
    filterRange (sortRowsByMonth
        [(202001, 100), (202002, 100), (202003, 1000), (202004, 100), (202005, 100)])
        (some 202003) none =
      filterRange (sortRowsByMonth
        [(201901, 999999), (202001, 100), (202002, 100), (202003, 1000), (202004, 100),
         (202005, 100)]) (some 202003) none ∧
    load_commits [(202001, 100), (202002, 100), (202003, 1000), (202004, 100), (202005, 100)]
        (some 202003) none =
      load_commits [(201901, 999999), (202001, 100), (202002, 100), (202003, 1000),
        (202004, 100), (202005, 100)] (some 202003) none :=
  ⟨by decide,
    load_commits_depends_only_on_window
      [(202001, 100), (202002, 100), (202003, 1000), (202004, 100), (202005, 100)]
      [(201901, 999999), (202001, 100), (202002, 100), (202003, 1000), (202004, 100),
       (202005, 100)]
      (some 202003) none (by decide)⟩

/-- C8: boundary behaviour of `cap_outliers`.  When the flagged outlier is the
last point, the trailing missing value is filled with the nearest available
non-flagged value and the function returns normally.  When the flagged
outlier is the first point, however, forward linear interpolation leaves the
leading missing value unfilled and the `astype("int64")` cast raises — the
function fails instead of returning a series (first conjunct: the model
returns `none`, its embedding of that exception). -/
theorem cap_outliers_boundary_behaviour :
    capOutliers [(202001, 1000), (202002, 100), (202003, 100), (202004, 100), (202005, 100)] =
      none ∧
    capOutliers [(202001, 100), (202002, 100), (202003, 100), (202004, 100), (202005, 1000)] =
      some [(202001, 100), (202002, 100), (202003, 100), (202004, 100), (202005, 100)] := by
  decide

/-! ## Claim C10 — event filtering and catalog order -/

/-- C10: `get_events_in_range` returns exactly the catalog entries whose date
lies in `[start, end]`, in catalog order (a sublist of the catalog); and the
catalog order is not chronological — in the full-range output the 28th entry
(Claude 3.5 Haiku, 2024-10-22) is immediately followed by the 29th
(Llama 3.2, 2024-09-25), an adjacent out-of-order pair, so the renderer can
hand `assign_levels` a non-chronological event sequence. -/
theorem get_events_in_range_exact_and_unsorted :
    (∀ s e : SimpleDate, ∀ ev : RelEvent, ev ∈ getEventsInRange s e ↔
      (ev ∈ getEventsAsDicts ∧ dateLe s ev.date = true ∧ dateLe ev.date e = true)) ∧
    (∀ s e : SimpleDate, (getEventsInRange s e).Sublist getEventsAsDicts) ∧
    ((getEventsInRange ⟨2020, 1, 1⟩ ⟨2025, 12, 31⟩).map (fun ev => ev.date))[27]? =
      some ⟨2024, 10, 22⟩ ∧
    ((getEventsInRange ⟨2020, 1, 1⟩ ⟨2025, 12, 31⟩).map (fun ev => ev.date))[28]? =
      some ⟨2024, 9, 25⟩ ∧
    dateLe ⟨2024, 10, 22⟩ ⟨2024, 9, 25⟩ = false := by
  refine ⟨?_, ?_, by decide, by decide, by decide⟩
  · intro s e ev
    unfold getEventsInRange
    rw [List.mem_filter]
    simp [Bool.and_eq_true]
  · intro s e
    exact List.filter_sublist _

/-! ## Claim C6 — lane assignment never collides except by fallback -/

theorem levelsFrom_length (ll : ℕ → Option ℤ) (ds : List ℤ) :
    (levelsFrom ll ds).length = ds.length := by
  induction ds generalizing ll with
  | nil => rfl
  | cons d t ih => simp [levelsFrom, ih]

theorem stateFrom_append (ll : ℕ → Option ℤ) (xs ys : List ℤ) :
    stateFrom ll (xs ++ ys) = stateFrom (stateFrom ll xs) ys := by
  unfold stateFrom
  rw [List.foldl_append]

/-- A lane occupied before a run of events stays occupied. -/
theorem stateFrom_none (ll : ℕ → Option ℤ) (ds : List ℤ) (a : ℕ)
    (h : stateFrom ll ds a = none) : ll a = none := by
  induction ds generalizing ll with
  | nil => exact h
  | cons d t ih =>
    have h' := ih (stepState ll d) h
    unfold stepState at h'
    by_cases ha : a = (findLevel ll d).getD 0
    · subst ha
      simp at h'
    · simpa [ha] using h'

/-- A date stored in a lane is either the lane's original date or the date of
one of the processed events. -/
theorem stateFrom_some_mem (ll : ℕ → Option ℤ) (ds : List ℤ) (a : ℕ) (v : ℤ)
    (h : stateFrom ll ds a = some v) : ll a = some v ∨ v ∈ ds := by
  induction ds generalizing ll with
  | nil => exact Or.inl h
  | cons d t ih =>
    rcases ih (stepState ll d) h with hstep | hmem
    · unfold stepState at hstep
      by_cases ha : a = (findLevel ll d).getD 0
      · subst ha
        simp at hstep
        exact Or.inr (by simp [hstep])
      · rw [if_neg ha] at hstep
        exact Or.inl hstep
    · exact Or.inr (List.mem_cons_of_mem _ hmem)

/-- The level assigned to the `k`-th event is computed by the lane scan
against the state reached after the first `k` events. -/
theorem levelsFrom_getD (ll : ℕ → Option ℤ) (ds : List ℤ) (k : ℕ) (hk : k < ds.length) :
    (levelsFrom ll ds).getD k 0 =
      (findLevel (stateFrom ll (ds.take k)) (ds.getD k 0)).getD 0 := by
  induction ds generalizing ll k with
  | nil => simp at hk
  | cons d t ih =>
    cases k with
    | zero => simp [levelsFrom, stateFrom]
    | succ k =>
      have hk' : k < t.length := by simpa using hk
      show (levelsFrom (stepState ll d) t).getD k 0 = _
      rw [ih (stepState ll d) k hk']
      rfl

theorem stateFrom_take_succ (ll : ℕ → Option ℤ) (ds : List ℤ) (k : ℕ)
    (hk : k < ds.length) :
    stateFrom ll (ds.take (k + 1)) =
      stepState (stateFrom ll (ds.take k)) (ds.getD k 0) := by
  induction ds generalizing ll k with
  | nil => simp at hk
  | cons d t ih =>
    cases k with
    | zero => rfl
    | succ k =>
      have hk' : k < t.length := by simpa using hk
      show stateFrom (stepState ll d) (t.take (k + 1)) = _
      rw [ih (stepState ll d) k hk']
      rfl

/-- C6: `assign_levels` gives each event the first lane (from lane 0) whose
last-placed date is unset or at least `MIN_DAY_GAP` days earlier — that scan
is `findLevel`, applied to the state after the preceding events, with a
lane-0 fallback when it finds nothing (`levelsFrom_getD`).  Consequently, on a
chronologically sorted event list, two events closer together than the
minimum gap can only share a lane when the later one took the fallback: its
scan found no qualifying lane, and the shared lane is lane 0. -/
theorem assign_levels_gap_collision_fallback (dates : List ℤ)
    (hs : List.Pairwise (fun a b : ℤ => a ≤ b) dates)
    (i j : ℕ) (hi : i < dates.length) (hj : j < dates.length) (hij : i < j)
    (hgap : dates.getD j 0 - dates.getD i 0 < minDayGap)
    (hsame : (assign_levels dates).getD i 0 = (assign_levels dates).getD j 0) :
    findLevel (stateFrom (fun _ => none) (dates.take j)) (dates.getD j 0) = none ∧
    (assign_levels dates).getD j 0 = 0 := by
  have hlevi : (assign_levels dates).getD i 0 =
      (findLevel (stateFrom (fun _ => none) (dates.take i)) (dates.getD i 0)).getD 0 :=
    levelsFrom_getD (fun _ => none) dates i hi
  have hlevj : (assign_levels dates).getD j 0 =
      (findLevel (stateFrom (fun _ => none) (dates.take j)) (dates.getD j 0)).getD 0 :=
    levelsFrom_getD (fun _ => none) dates j hj
  have hocc : stateFrom (fun _ => none) (dates.take (i + 1))
      ((assign_levels dates).getD i 0) = some (dates.getD i 0) := by
    rw [stateFrom_take_succ (fun _ => none) dates i hi, hlevi]
    unfold stepState
    simp
  have hij1 : i + 1 ≤ j := hij
  have hsplit : dates.take j = dates.take (i + 1) ++ (dates.take j).drop (i + 1) := by
    conv_lhs => rw [← List.take_append_drop (i + 1) (dates.take j)]
    rw [List.take_take, min_eq_left hij1]
  have hstatej : stateFrom (fun _ => none) (dates.take j) =
      stateFrom (stateFrom (fun _ => none) (dates.take (i + 1)))
        ((dates.take j).drop (i + 1)) := by
    conv_lhs => rw [hsplit]
    exact stateFrom_append _ _ _
  have hne : stateFrom (fun _ => none) (dates.take j) ((assign_levels dates).getD i 0) ≠
      none := by
    intro hc
    rw [hstatej] at hc
    have hc' := stateFrom_none _ _ _ hc
    rw [hocc] at hc'
    exact Option.noConfusion hc'
  obtain ⟨v, hv⟩ := Option.ne_none_iff_exists'.mp hne
  have hvge : dates.getD i 0 ≤ v := by
    rw [hstatej] at hv
    rcases stateFrom_some_mem _ _ _ _ hv with hcase | hcase
    · rw [hocc] at hcase
      injection hcase with hh
      exact le_of_eq hh
    · have htakei : dates.take (i + 1) = dates.take i ++ [dates.getD i 0] := by
        rw [List.take_succ, List.getElem?_eq_getElem hi, List.getD_eq_getElem dates 0 hi]
        rfl
      have hsortedj : (dates.take j).Pairwise (fun a b : ℤ => a ≤ b) :=
        hs.sublist (List.take_sublist j dates)
      rw [hsplit, htakei, List.append_assoc] at hsortedj
      have h2 := (List.pairwise_append.mp hsortedj).2.1
      have h3 := (List.pairwise_cons.mp h2).1
      exact h3 v hcase
  have hvlt : ¬ (dates.getD j 0 - v ≥ minDayGap) := by
    intro hc
    omega
  have hfind : findLevel (stateFrom (fun _ => none) (dates.take j)) (dates.getD j 0) =
      none := by
    cases hf : findLevel (stateFrom (fun _ => none) (dates.take j)) (dates.getD j 0) with
    | none => rfl
    | some l =>
      have hla : l = (assign_levels dates).getD i 0 := by
        rw [hsame, hlevj, hf]
        rfl
      have hpred := List.find?_some hf
      rw [hla, hv] at hpred
      simp only [decide_eq_true_eq] at hpred
      exact absurd hpred hvlt
  refine ⟨hfind, ?_⟩
  rw [hlevj, hfind]
  rfl

/-- Witness for C6: seven same-day events exhaust all six lanes; the seventh
collides with the first on lane 0 via the fallback. -/
theorem assign_levels_gap_collision_fallback_witness :
    (List.Pairwise (fun a b : ℤ => a ≤ b) ([0, 0, 0, 0, 0, 0, 0] : List ℤ) ∧
      (0 : ℕ) < ([0, 0, 0, 0, 0, 0, 0] : List ℤ).length ∧
      (6 : ℕ) < ([0, 0, 0, 0, 0, 0, 0] : List ℤ).length ∧
      (0 : ℕ) < 6 ∧
      ([0, 0, 0, 0, 0, 0, 0] : List ℤ).getD 6 0 -
        ([0, 0, 0, 0, 0, 0, 0] : List ℤ).getD 0 0 < minDayGap ∧
      (assign_levels [0, 0, 0, 0, 0, 0, 0]).getD 0 0 =
        (assign_levels [0, 0, 0, 0, 0, 0, 0]).getD 6 0) ∧
    (findLevel (stateFrom (fun _ => none) (([0, 0, 0, 0, 0, 0, 0] : List ℤ).take 6))
        (([0, 0, 0, 0, 0, 0, 0] : List ℤ).getD 6 0) = none ∧
      (assign_levels [0, 0, 0, 0, 0, 0, 0]).getD 6 0 = 0) :=
  ⟨⟨by decide, by decide, by decide, by decide, by decide, by decide⟩,
    assign_levels_gap_collision_fallback [0, 0, 0, 0, 0, 0, 0] (by decide) 0 6
      (by decide) (by decide) (by decide) (by decide) (by decide)⟩

end AIvsCommits
